import Mathlib

/-!
Shallow embedding of `mpa/modules/hooks/auxiliary_hooks.py`: the record-keeping
forward callback of `BaseAuxiliaryHook` and the three transforms
(`SaliencyMapHook.func`, `EigenCamHook.func`, `FeatureVectorHook.func`).
Tensors are nested lists of exact rationals standing for the floating-point
values; byte maps are nested lists of naturals.
-/

namespace AuxHooks

/-- An activation tensor of shape (batch, channel, height, width). -/
abbrev Tensor4 := List (List (List (List ℚ)))

/-- One example of an activation tensor: (channel, height, width). -/
abbrev Example4 := List (List (List ℚ))

/-- One per-example byte saliency map, shape (height, width). -/
abbrev ByteMap := List (List ℕ)

/-- The `Union[torch.Tensor, list[torch.Tensor]]` argument of the transforms:
a single tensor or an ordered sequence of tensors (FPN levels). -/
abbrev FeatureMapInput := Tensor4 ⊕ List Tensor4

/-- The epsilon guard `1e-12` added to the normalization denominators. -/
def eps : ℚ := 1 / 10 ^ 12

/-- Conversion `.to(torch.uint8)`: truncation toward zero.  On the nonnegative
values produced by the normalization this is the integer floor. -/
def toByte (q : ℚ) : ℕ := (⌊q⌋).toNat

/-- Per-example `torch.min(saliency_map, -1)`; 0 on the empty list, which only
arises for a degenerate zero-sized spatial extent. -/
def minQ : List ℚ → ℚ
  | [] => 0
  | x :: xs => xs.foldl min x

/-- Per-example `torch.max(saliency_map, -1)`; 0 on the empty list. -/
def maxQ : List ℚ → ℚ
  | [] => 0
  | x :: xs => xs.foldl max x

/-- Step `torch.mean(feature_map, dim=1)` of `SaliencyMapHook.func` on one
example, with the spatial extents read off the head entries exactly as
`bs, c, h, w = feature_map.size()` reads them off a rectangular tensor. -/
def channelMean (ex : Example4) : List (List ℚ) :=
  (List.range ex.headI.length).map fun i =>
    (List.range ex.headI.headI.length).map fun j =>
      (ex.map fun ch => (ch.getD i []).getD j 0).sum / (ex.length : ℚ)

/-- Per-example tail of `SaliencyMapHook.func`: flatten the channel-averaged
map, take per-example min and max, normalize each value by
`255 * (v - min) / (max - min + 1e-12)`, and quantize to bytes.  The code
flattens to (bs, h*w), normalizes, and reshapes back to (bs, h, w); since the
normalization is pointwise this is written directly on the (h, w) matrix. -/
def saliencyEx (ex : Example4) : ByteMap :=
  (channelMean ex).map (List.map fun v =>
    toByte (255 * (v - minQ (channelMean ex).flatten) /
      (maxQ (channelMean ex).flatten - minQ (channelMean ex).flatten + eps)))

/-- Resolution of the `Union` argument: `if isinstance(feature_map, list):
feature_map = feature_map[_fpn_idx]`. -/
def resolveFm (fm : FeatureMapInput) (idx : ℕ) : Tensor4 :=
  match fm with
  | Sum.inl t => t
  | Sum.inr l => l.getD idx []

/-- Whole of `SaliencyMapHook.func`: resolve the input at `_fpn_idx`, then map
the per-example saliency computation over the batch. -/
def saliencyMapFunc (fm : FeatureMapInput) (idx : ℕ) : List ByteMap :=
  (resolveFm fm idx).map saliencyEx

/-- A Record as appended by `BaseAuxiliaryHook._recording_forward`: either one
per-example slice of the transform result, or the whole undecomposed result. -/
abbrev TRec (A : Type) := A ⊕ List A

/-- Record-appending branch of `BaseAuxiliaryHook._recording_forward`: when
`len(tensor) > 1` each per-example slice is appended separately, otherwise the
whole array is appended as a single record. -/
def appendRecords {A : Type} (rs : List (TRec A)) (tensor : List A) : List (TRec A) :=
  if 1 < tensor.length then rs ++ tensor.map Sum.inl else rs ++ [Sum.inr tensor]

/-- State of a hook instance: the `_fpn_idx` stored at construction and the
accumulated `_records`. -/
structure AuxHook (A : Type) where
  fpnIdx : ℕ
  records : List (TRec A)

/-- The `_recording_forward` of a `SaliencyMapHook`: `tensor = self.func(output)`
passes only the output, so the `_fpn_idx` parameter of `func` takes its
declared default `0`; the hook's stored `fpnIdx` is not forwarded. -/
def recordingForwardSaliency (h : AuxHook ByteMap) (output : FeatureMapInput) :
    AuxHook ByteMap :=
  { h with records := appendRecords h.records (saliencyMapFunc output 0) }

/-- Pooling `adaptive_avg_pool2d(f, (1, 1))` on one example: per channel, the
mean over all spatial positions, kept as a 1-by-1 spatial map. -/
def pooledEx (ex : Example4) : Example4 :=
  ex.map fun ch => [[ch.flatten.sum / (ch.flatten.length : ℚ)]]

/-- Concatenation `torch.cat(ts, 1)` along the channel axis, modelled for
tensors sharing the leading batch length of the first element. -/
def catChannel (ts : List Tensor4) : Tensor4 :=
  (List.range ts.headI.length).map fun j => (ts.map fun t => t.getD j []).flatten

/-- Whole of `FeatureVectorHook.func`.  A list input has every level pooled and
the results concatenated along the channel axis; `torch.cat` raises a runtime
error when handed an empty list of tensors. -/
def featureVectorFunc (fm : FeatureMapInput) : Except String Tensor4 :=
  match fm with
  | Sum.inl t => Except.ok (t.map pooledEx)
  | Sum.inr [] => Except.error "cat expected a non-empty list of tensors"
  | Sum.inr (t :: ts) => Except.ok (catChannel ((t :: ts).map fun u => u.map pooledEx))

/-- A constant-valued activation tensor of shape (B, C, H, W) with value v. -/
def constTensor (B C H W : ℕ) (v : ℚ) : Tensor4 :=
  List.replicate B (List.replicate C (List.replicate H (List.replicate W v)))

/-- Channel rows of one example: each channel's spatial map flattened to a row
of length h*w (the `(bs, c, h*w)` view taken by `EigenCamHook.func`). -/
def flatChannels (ex : Example4) : List (List ℚ) :=
  ex.map List.flatten

/-- The `(h*w, c)` matrix `reshaped_fmap` of `EigenCamHook.func` after the
`.transpose(1, 2)`: one row per spatial position, one column per channel. -/
def reshapedFmap (ex : Example4) : List (List ℚ) :=
  (List.range (flatChannels ex).headI.length).map fun p =>
    (flatChannels ex).map fun col => col.getD p 0

/-- Per-channel means `reshaped_fmap.mean(1)` over the spatial positions. -/
def colMeans (ex : Example4) : List ℚ :=
  (flatChannels ex).map fun col => col.sum / (col.length : ℚ)

/-- The centered matrix `reshaped_fmap - reshaped_fmap.mean(1)[:, None, :]`. -/
def centered (ex : Example4) : List (List ℚ) :=
  (reshapedFmap ex).map fun row => List.zipWith (fun a b => a - b) row (colMeans ex)

/-- Dot product of two rational vectors. -/
def dotQ (u v : List ℚ) : ℚ := (List.zipWith (fun a b => a * b) u v).sum

/-- Matrix times vector: one dot product per row.  With the centered matrix
this is the projection `reshaped_fmap @ V[:, 0][:, :, None]` of the code. -/
def matVecQ (m : List (List ℚ)) (v : List ℚ) : List ℚ := m.map fun row => dotQ row v

/-- Characterization of the first right-singular vector ("principal axis") of
a matrix m: a unit vector maximizing the norm of m*v among unit vectors of the
same dimension.  `torch.linalg.svd` returns one of the (sign-opposite) such
vectors as row 0 of its Vh factor; which sign comes back is unspecified. -/
def IsPrincipalAxis (m : List (List ℚ)) (v : List ℚ) : Prop :=
  dotQ v v = 1 ∧ ∀ u : List ℚ, u.length = v.length → dotQ u u = 1 →
    dotQ (matVecQ m u) (matVecQ m u) ≤ dotQ (matVecQ m v) (matVecQ m v)

/-- Regrouping of a flat spatial row into rows of width w: the final
`reshape((bs, h, w))`. -/
def chunksW {α : Type} (w : ℕ) : List α → List (List α)
  | [] => []
  | x :: xs => (x :: xs.take (w - 1)) :: chunksW w (xs.drop (w - 1))
  termination_by l => l.length
  decreasing_by simp [List.length_drop]; omega

/-- Per-example `EigenCamHook.func` with the principal axis supplied
explicitly (standing for row 0 of the Vh factor of `torch.linalg.svd`, whose
sign is not specified): project the centered data onto the axis, normalize per
example by `255 * (s - min) / (max - min + 1e-12)`, quantize to bytes, and
reshape the flat h*w saliency row back to (h, w). -/
def eigenCamExFromAxis (ex : Example4) (v : List ℚ) : ByteMap :=
  chunksW ex.headI.headI.length ((matVecQ (centered ex) v).map fun s =>
    toByte (255 * (s - minQ (matVecQ (centered ex) v)) /
      (maxQ (matVecQ (centered ex) v) - minQ (matVecQ (centered ex) v) + eps)))

/-- Batched `EigenCamHook.func` with one principal axis per example. -/
def eigenCamFromAxis (x : Tensor4) (vs : List (List ℚ)) : List ByteMap :=
  List.zipWith eigenCamExFromAxis x vs

/-- Channel-wise negation of one example. -/
def negEx (ex : Example4) : Example4 := ex.map (List.map (List.map Neg.neg))

/-- Channel-wise negation of a whole activation tensor. -/
def negT (x : Tensor4) : Tensor4 := x.map negEx

/-- Modelled from the spec: state of one hook attachment as seen through the
Interception Point contract of section 4.1 (the `register_forward_hook` /
`handle.remove` machinery lives in the host framework, not in this
repository): whether the callback is currently attached, and the accumulated
records owned by the hook. -/
structure HookState (A : Type) where
  attached : Bool
  records : List (TRec A)

/-- The `__enter__` of `BaseAuxiliaryHook`: attach the recording callback. -/
def hookEnter {A : Type} (s : HookState A) : HookState A :=
  { s with attached := true }

/-- The `__exit__` of `BaseAuxiliaryHook`: `self._handle.remove()`. -/
def hookExit {A : Type} (s : HookState A) : HookState A :=
  { s with attached := false }

/-- Modelled from the spec: one forward invocation of the instrumented stage
(section 4.1: the callback fires synchronously whenever the stage produces an
output, its return value is discarded and the forward output is unmodified; a
detached callback no longer fires).  f is the stage's own computation, tr the
hook's transform producing the per-example result slices. -/
def forwardPass {I O A : Type} (f : I → O) (tr : O → List A)
    (s : HookState A) (x : I) : O × HookState A :=
  (f x, if s.attached then { s with records := appendRecords s.records (tr (f x)) } else s)

/-- Modelled from the spec: the scoped-acquisition block (section 4.2 and the
host language's with-statement semantics): enter attaches and yields the hook,
the body runs to a normal or failing outcome while mutating the state, and
exit detaches unconditionally on either outcome. -/
def withHookScope {A E B : Type} (body : HookState A → Except E B × HookState A)
    (s : HookState A) : Except E B × HookState A :=
  let r := body (hookEnter s)
  (r.1, hookExit r.2)

/-! ## Helper lemmas -/

lemma sum_map_neg (l : List ℚ) : (l.map Neg.neg).sum = -l.sum := by
  induction l with
  | nil => simp
  | cons a l ih => simp [ih, neg_add]; ring

lemma flatten_replicate_replicate (H W : ℕ) (v : ℚ) :
    (List.replicate H (List.replicate W v)).flatten = List.replicate (H * W) v := by
  induction H with
  | zero => simp
  | succ H ih =>
    rw [List.replicate_succ, List.flatten_cons, ih, show (H + 1) * W = W + H * W by ring,
      List.replicate_add]

lemma getD_map_comm {α β : Type} (f : α → β) (l : List α) (n : ℕ) (d : α) :
    (l.map f).getD n (f d) = f (l.getD n d) := by
  rcases lt_or_le n l.length with h | h
  · rw [List.getD_eq_getElem _ _ (by simpa using h), List.getD_eq_getElem _ _ h,
      List.getElem_map]
  · rw [List.getD_eq_default _ _ (by simpa using h), List.getD_eq_default _ _ h]

lemma length_appendRecords {A : Type} (rs : List (TRec A)) (t : List A) :
    (appendRecords rs t).length = rs.length + (if 1 < t.length then t.length else 1) := by
  by_cases h : 1 < t.length <;> simp [appendRecords, h]

/-! ## Claim theorems -/

/-- C9: the feature-vector transform applied to an empty sequence of
activation tensors fails (the concatenation of an empty list of pooled
tensors raises) rather than returning an embedding. -/
theorem featureVector_empty_sequence_error :
    featureVectorFunc (Sum.inr []) = Except.error "cat expected a non-empty list of tensors" :=
  rfl

/-- C10: when the transform result has leading batch dimension zero, the
recording callback still appends exactly one Record (the whole empty array),
not zero Records, so the one-Record-per-example rule fails for the empty
batch. -/
theorem empty_batch_appends_one_record {A : Type} (rs : List (TRec A)) :
    appendRecords rs [] = rs ++ [Sum.inr []] ∧
    (appendRecords rs []).length = rs.length + 1 := by
  constructor
  · simp [appendRecords]
  · simp [appendRecords]

/-- C4: one forward call with batch dimension B > 1 appends exactly the B
per-example slices in batch order; batch dimension exactly one appends the
single undecomposed result; N sequential batches of size B accumulate N*B
records, in batch-then-within-batch order. -/
theorem batch_splitting {A : Type} :
    (∀ (rs : List (TRec A)) (t : List A), 1 < t.length →
        appendRecords rs t = rs ++ t.map Sum.inl) ∧
    (∀ (rs : List (TRec A)) (t : List A), t.length = 1 →
        appendRecords rs t = rs ++ [Sum.inr t]) ∧
    (∀ B : ℕ, 0 < B → ∀ (rs : List (TRec A)) (bs : List (List A)),
        (∀ b ∈ bs, b.length = B) →
        (bs.foldl appendRecords rs).length = rs.length + bs.length * B) ∧
    (∀ (rs : List (TRec A)) (bs : List (List A)), (∀ b ∈ bs, 1 < b.length) →
        bs.foldl appendRecords rs = rs ++ (bs.map fun b => b.map Sum.inl).flatten) := by
  refine ⟨?_, ?_, ?_, ?_⟩
  · intro rs t h
    simp [appendRecords, h]
  · intro rs t h
    have h1 : ¬ 1 < t.length := by omega
    simp [appendRecords, h1]
  · intro B hB rs bs
    induction bs generalizing rs with
    | nil => intro _; simp
    | cons b bs ih =>
      intro h
      have hb : b.length = B := h b (List.mem_cons_self b bs)
      have hrest : ∀ x ∈ bs, x.length = B := fun x hx => h x (List.mem_cons_of_mem b hx)
      have hite : (if 1 < b.length then b.length else 1) = B := by
        rw [hb]; split <;> omega
      rw [List.foldl_cons, ih (appendRecords rs b) hrest, length_appendRecords, hite,
        List.length_cons, Nat.add_mul, Nat.one_mul]
      omega
  · intro rs bs
    induction bs generalizing rs with
    | nil => intro _; simp
    | cons b bs ih =>
      intro h
      have hb : 1 < b.length := h b (List.mem_cons_self b bs)
      have hrest : ∀ x ∈ bs, 1 < x.length := fun x hx => h x (List.mem_cons_of_mem b hx)
      rw [List.foldl_cons, ih (appendRecords rs b) hrest]
      simp [appendRecords, hb, List.append_assoc]

/-- Witness for C4 at concrete inputs: a batch of two slices is split into two
records in order, and two batches of size two accumulate four records. -/
theorem batch_splitting_witness :
    appendRecords ([] : List (TRec ℕ)) [1, 2] = [Sum.inl 1, Sum.inl 2] ∧
    ([[1, 2], [3, 4]].foldl appendRecords ([] : List (TRec ℕ))).length = 0 + 2 * 2 := by
  constructor
  · exact (batch_splitting).1 [] [1, 2] (by decide)
  · have h := (batch_splitting).2.2.1 2 (by decide) ([] : List (TRec ℕ)) [[1, 2], [3, 4]]
      (by decide)
    simpa using h

/-- C5: after the scoped block has exited, the hook is detached on every exit
path (the body's outcome, normal or failing, is irrelevant), a further forward
invocation appends no records, and the stage's output is the same as in a run
where no hook was ever attached (indeed the callback never alters the
output). -/
theorem detach_on_scope_exit {I O A E B : Type} (f : I → O) (tr : O → List A)
    (body : HookState A → Except E B × HookState A) (s : HookState A) (x : I) :
    (withHookScope body s).2.attached = false ∧
    (forwardPass f tr (withHookScope body s).2 x).2.records
      = (withHookScope body s).2.records ∧
    (forwardPass f tr (withHookScope body s).2 x).1
      = (forwardPass f tr (HookState.mk false []) x).1 ∧
    (∀ s0 : HookState A, (forwardPass f tr s0 x).1 = f x) := by
  refine ⟨rfl, ?_, rfl, fun s0 => rfl⟩
  simp [forwardPass, withHookScope, hookExit]

lemma length_pooledEx (ex : Example4) : (pooledEx ex).length = ex.length := by
  simp [pooledEx]

lemma getD_map_pooledEx (u : Tensor4) (j : ℕ) :
    (u.map pooledEx).getD j [] = pooledEx (u.getD j []) := by
  have h := getD_map_comm pooledEx u j []
  simpa [pooledEx] using h

lemma getD_range_map {α : Type} (n : ℕ) (g : ℕ → α) (j : ℕ) (d : α) (hj : j < n) :
    ((List.range n).map g).getD j d = g j := by
  rw [List.getD_eq_getElem _ _ (by simpa using hj), List.getElem_map, List.getElem_range]

lemma pooledEx_const (C H W : ℕ) (v : ℚ) (hHW : 0 < H * W) :
    pooledEx (List.replicate C (List.replicate H (List.replicate W v)))
      = List.replicate C [[v]] := by
  have hne : ((H * W : ℕ) : ℚ) ≠ 0 := Nat.cast_ne_zero.mpr (by omega)
  rw [pooledEx, List.map_replicate, flatten_replicate_replicate, List.sum_replicate,
    List.length_replicate, nsmul_eq_mul, mul_div_cancel_left₀ _ hne]

/-- C6: the feature-vector transform on a constant tensor of shape (B,C,H,W)
with value v returns, for every example, the length-C pooled vector whose
every entry is v (exactly, in this rational model); and on a sequence input
the per-example output is the concatenation of the per-level pooled vectors in
sequence order, so its length is the sum of the channel counts. -/
theorem featureVector_pooling :
    (∀ (B C H W : ℕ) (v : ℚ), 0 < H * W →
        featureVectorFunc (Sum.inl (constTensor B C H W v))
          = Except.ok (List.replicate B (List.replicate C [[v]]))) ∧
    (∀ (t : Tensor4) (ts : List Tensor4) (j : ℕ), j < t.length →
        ∃ out, featureVectorFunc (Sum.inr (t :: ts)) = Except.ok out ∧
          out.getD j [] = ((t :: ts).map fun u => pooledEx (u.getD j [])).flatten ∧
          (out.getD j []).length = ((t :: ts).map fun u => (u.getD j []).length).sum) := by
  constructor
  · intro B C H W v hHW
    simp only [featureVectorFunc, constTensor, List.map_replicate, pooledEx_const C H W v hHW]
  · intro t ts j hj
    have hget : (catChannel ((t :: ts).map fun u => u.map pooledEx)).getD j []
        = ((t :: ts).map fun u => pooledEx (u.getD j [])).flatten := by
      have h1 : catChannel ((t :: ts).map fun u => u.map pooledEx)
          = (List.range t.length).map fun p =>
              ((((t :: ts).map fun u => u.map pooledEx)).map fun u => u.getD p []).flatten := by
        simp [catChannel]
      rw [h1, getD_range_map t.length _ j [] hj, List.map_map]
      exact congrArg List.flatten (List.map_congr_left fun u _ => getD_map_pooledEx u j)
    refine ⟨_, rfl, hget, ?_⟩
    rw [hget, List.length_flatten, List.map_map]
    exact congrArg List.sum (List.map_congr_left fun u _ => length_pooledEx (u.getD j []))

/-- Witness for C6: a constant 1x2x1x2 tensor of value 5 pools to the vector
(5, 5), and a one-level sequence satisfies the concatenation law at example
index 0. -/
theorem featureVector_pooling_witness :
    (0 < 1 * 2 ∧
      featureVectorFunc (Sum.inl (constTensor 1 2 1 2 5))
        = Except.ok (List.replicate 1 (List.replicate 2 [[5]]))) ∧
    (0 < (constTensor 2 1 1 1 3).length ∧
      ∃ out, featureVectorFunc (Sum.inr [constTensor 2 1 1 1 3]) = Except.ok out ∧
        out.getD 0 [] = (([constTensor 2 1 1 1 3]).map fun u => pooledEx (u.getD 0 [])).flatten ∧
        (out.getD 0 []).length
          = (([constTensor 2 1 1 1 3]).map fun u => (u.getD 0 []).length).sum) := by
  constructor
  · exact ⟨by decide, (featureVector_pooling).1 1 2 1 2 5 (by decide)⟩
  · exact ⟨by decide, (featureVector_pooling).2 (constTensor 2 1 1 1 3) [] 0 (by decide)⟩

lemma foldl_min_le_init (l : List ℚ) (a : ℚ) : l.foldl min a ≤ a := by
  induction l generalizing a with
  | nil => simp
  | cons x xs ih => exact le_trans (ih (min a x)) (min_le_left a x)

lemma foldl_min_le_mem (l : List ℚ) : ∀ (a x : ℚ), x ∈ l → l.foldl min a ≤ x := by
  induction l with
  | nil => intro a x hx; cases hx
  | cons y ys ih =>
    intro a x hx
    rcases List.mem_cons.mp hx with h | h
    · subst h
      exact le_trans (foldl_min_le_init ys (min a x)) (min_le_right a x)
    · exact ih (min a y) x h

lemma minQ_le_mem (l : List ℚ) (x : ℚ) (hx : x ∈ l) : minQ l ≤ x := by
  cases l with
  | nil => cases hx
  | cons a as =>
    rcases List.mem_cons.mp hx with h | h
    · subst h; exact foldl_min_le_init as x
    · exact foldl_min_le_mem as a x h

lemma init_le_foldl_max (l : List ℚ) (a : ℚ) : a ≤ l.foldl max a := by
  induction l generalizing a with
  | nil => simp
  | cons x xs ih => exact le_trans (le_max_left a x) (ih (max a x))

lemma mem_le_foldl_max (l : List ℚ) : ∀ (a x : ℚ), x ∈ l → x ≤ l.foldl max a := by
  induction l with
  | nil => intro a x hx; cases hx
  | cons y ys ih =>
    intro a x hx
    rcases List.mem_cons.mp hx with h | h
    · subst h
      exact le_trans (le_max_right a x) (init_le_foldl_max ys (max a x))
    · exact ih (max a y) x h

lemma le_maxQ_mem (l : List ℚ) (x : ℚ) (hx : x ∈ l) : x ≤ maxQ l := by
  cases l with
  | nil => cases hx
  | cons a as =>
    rcases List.mem_cons.mp hx with h | h
    · subst h; exact init_le_foldl_max as x
    · exact mem_le_foldl_max as a x h

lemma toByte_zero : toByte 0 = 0 := by simp [toByte]

lemma saliencyEx_flat (ex : Example4)
    (h : minQ (channelMean ex).flatten = maxQ (channelMean ex).flatten) :
    saliencyEx ex = (channelMean ex).map (List.map fun _ => 0) := by
  rw [saliencyEx]
  apply List.map_congr_left
  intro row hrow
  apply List.map_congr_left
  intro v hv
  have hmem : v ∈ (channelMean ex).flatten := List.mem_flatten.mpr ⟨row, hrow, hv⟩
  have h1 : minQ (channelMean ex).flatten ≤ v := minQ_le_mem _ v hmem
  have h2 : v ≤ maxQ (channelMean ex).flatten := le_maxQ_mem _ v hmem
  have hveq : v = minQ (channelMean ex).flatten := le_antisymm (h ▸ h2) h1
  rw [hveq, sub_self, mul_zero, zero_div, toByte_zero]

/-- C7: on the concrete 1x2x2x2 tensor with channel 0 constant 1 and channel 1
constant 3 the channel-averaging transform returns a 1x2x2 all-zero byte map;
and in general whenever the per-example channel-averaged map is constant (its
min equals its max), the epsilon guard makes the example's output exactly
zero everywhere. -/
theorem saliency_flat_activation :
    saliencyMapFunc (Sum.inl [[[[1, 1], [1, 1]], [[3, 3], [3, 3]]]]) 0 = [[[0, 0], [0, 0]]] ∧
    (∀ ex : Example4, minQ (channelMean ex).flatten = maxQ (channelMean ex).flatten →
        saliencyEx ex = (channelMean ex).map (List.map fun _ => 0)) := by
  have hcm : channelMean [[[1, 1], [1, 1]], [[3, 3], [3, 3]]] = [[2, 2], [2, 2]] := by
    simp [channelMean, List.range_succ, List.headI]
    norm_num
  constructor
  · have hmm : minQ (channelMean [[[1, 1], [1, 1]], [[3, 3], [3, 3]]]).flatten
        = maxQ (channelMean [[[1, 1], [1, 1]], [[3, 3], [3, 3]]]).flatten := by
      rw [hcm]; simp [minQ, maxQ]
    have h0 := saliencyEx_flat _ hmm
    rw [saliencyMapFunc]
    simp only [resolveFm, List.map_cons, List.map_nil]
    rw [h0, hcm]
    simp
  · exact saliencyEx_flat

/-- Witness for C7: a 1x1x1x2 tensor constant 5 has a flat channel-averaged
map, and its saliency output is all zeros. -/
theorem saliency_flat_activation_witness :
    minQ (channelMean [[[5, 5]]]).flatten = maxQ (channelMean [[[5, 5]]]).flatten ∧
    saliencyEx [[[5, 5]]] = (channelMean [[[5, 5]]]).map (List.map fun _ => 0) := by
  have hcm : channelMean [[[5, 5]]] = [[5, 5]] := by
    simp [channelMean, List.range_succ, List.headI]
  have hmm : minQ (channelMean [[[5, 5]]]).flatten = maxQ (channelMean [[[5, 5]]]).flatten := by
    rw [hcm]; simp [minQ, maxQ]
  exact ⟨hmm, (saliency_flat_activation).2 [[[5, 5]]] hmm⟩

/-- C1 (code bug): a SaliencyMapHook constructed with `_fpn_idx = 1`, on a
sequence of three tensors of differing spatial size, records the transform of
element 0, not of element 1: `_recording_forward` invokes `self.func(output)`
without forwarding the stored `_fpn_idx`, so the default index 0 is used.
The recorded output moreover differs from the transform of element 1. -/
theorem fpn_index_not_forwarded :
    (recordingForwardSaliency (AuxHook.mk 1 [])
        (Sum.inr [[[[[0, 4]]]], [[[[1, 2], [3, 4]]]], [[[[5], [6], [7]]]]])).records
      = [Sum.inr (saliencyMapFunc (Sum.inl [[[[0, 4]]]]) 0)] ∧
    saliencyMapFunc (Sum.inl [[[[0, 4]]]]) 0
      ≠ saliencyMapFunc (Sum.inl [[[[1, 2], [3, 4]]]]) 0 := by
  constructor
  · rfl
  · intro hcontra
    have hlen := congrArg (fun l => l.headI.length) hcontra
    simp [saliencyMapFunc, resolveFm, saliencyEx, channelMean, List.headI] at hlen

lemma dotQ_neg_left (u : List ℚ) : ∀ v : List ℚ, dotQ (u.map Neg.neg) v = -dotQ u v := by
  induction u with
  | nil => intro v; simp [dotQ]
  | cons a u ih =>
    intro v
    cases v with
    | nil => simp [dotQ]
    | cons b v =>
      simp only [List.map_cons, dotQ, List.zipWith_cons_cons, List.sum_cons] at *
      rw [ih v]
      ring

lemma dotQ_neg_right (u : List ℚ) : ∀ v : List ℚ, dotQ u (v.map Neg.neg) = -dotQ u v := by
  induction u with
  | nil => intro v; simp [dotQ]
  | cons a u ih =>
    intro v
    cases v with
    | nil => simp [dotQ]
    | cons b v =>
      simp only [List.map_cons, dotQ, List.zipWith_cons_cons, List.sum_cons] at *
      rw [ih v]
      ring

lemma map_neg_map_neg (l : List ℚ) : (l.map Neg.neg).map Neg.neg = l := by
  simp [List.map_map]

lemma matVecQ_neg_matrix (m : List (List ℚ)) (u : List ℚ) :
    matVecQ (m.map (List.map Neg.neg)) u = (matVecQ m u).map Neg.neg := by
  rw [matVecQ, matVecQ, List.map_map, List.map_map]
  exact List.map_congr_left fun row _ => dotQ_neg_left row u

lemma matVecQ_neg_vector (m : List (List ℚ)) (v : List ℚ) :
    matVecQ m (v.map Neg.neg) = (matVecQ m v).map Neg.neg := by
  rw [matVecQ, matVecQ, List.map_map]
  exact List.map_congr_left fun row _ => dotQ_neg_right row v

lemma isPrincipalAxis_neg (m : List (List ℚ)) (v : List ℚ) (h : IsPrincipalAxis m v) :
    IsPrincipalAxis (m.map (List.map Neg.neg)) (v.map Neg.neg) := by
  obtain ⟨h1, h2⟩ := h
  constructor
  · rw [dotQ_neg_left, dotQ_neg_right, neg_neg]
    exact h1
  · intro u hlen hu
    rw [List.length_map] at hlen
    have hL : dotQ (matVecQ (m.map (List.map Neg.neg)) u) (matVecQ (m.map (List.map Neg.neg)) u)
        = dotQ (matVecQ m u) (matVecQ m u) := by
      rw [matVecQ_neg_matrix, dotQ_neg_left, dotQ_neg_right, neg_neg]
    have hR : dotQ (matVecQ (m.map (List.map Neg.neg)) (v.map Neg.neg))
          (matVecQ (m.map (List.map Neg.neg)) (v.map Neg.neg))
        = dotQ (matVecQ m v) (matVecQ m v) := by
      rw [matVecQ_neg_matrix, matVecQ_neg_vector, map_neg_map_neg]
    rw [hL, hR]
    exact h2 u hlen hu

lemma flatChannels_negEx (ex : Example4) :
    flatChannels (negEx ex) = (flatChannels ex).map (List.map Neg.neg) := by
  rw [flatChannels, flatChannels, negEx, List.map_map, List.map_map]
  exact List.map_congr_left fun ch _ => (List.map_flatten Neg.neg ch).symm

lemma headI_map_map_length {α β : Type} (f : α → β) (l : List (List α)) :
    ((l.map (List.map f)).headI).length = l.headI.length := by
  cases l with
  | nil => rfl
  | cons a as => simp

lemma getD_neg (col : List ℚ) (p : ℕ) : (col.map Neg.neg).getD p 0 = -(col.getD p 0) := by
  have h := getD_map_comm Neg.neg col p 0
  simpa using h

lemma reshapedFmap_negEx (ex : Example4) :
    reshapedFmap (negEx ex) = (reshapedFmap ex).map (List.map Neg.neg) := by
  rw [reshapedFmap, reshapedFmap, flatChannels_negEx, headI_map_map_length, List.map_map]
  congr 1
  funext p
  show ((flatChannels ex).map (List.map Neg.neg)).map (fun col => col.getD p 0)
      = ((flatChannels ex).map fun col => col.getD p 0).map Neg.neg
  rw [List.map_map, List.map_map]
  congr 1
  funext col
  show (List.map Neg.neg col).getD p 0 = -(col.getD p 0)
  exact getD_neg col p

lemma colMeans_negEx (ex : Example4) : colMeans (negEx ex) = (colMeans ex).map Neg.neg := by
  rw [colMeans, colMeans, flatChannels_negEx]
  simp only [List.map_map, Function.comp]
  apply List.map_congr_left
  intro col _
  simp [sum_map_neg, neg_div]

lemma zipWith_sub_neg (r ms : List ℚ) :
    List.zipWith (fun a b => a - b) (r.map Neg.neg) (ms.map Neg.neg)
      = (List.zipWith (fun a b => a - b) r ms).map Neg.neg := by
  rw [List.zipWith_map, List.map_zipWith]
  have h : (fun (a b : ℚ) => -a - -b) = fun a b => -(a - b) := by
    funext a b
    ring
  rw [h]

lemma centered_negEx (ex : Example4) :
    centered (negEx ex) = (centered ex).map (List.map Neg.neg) := by
  conv_lhs => rw [centered, reshapedFmap_negEx, colMeans_negEx]
  conv_rhs => rw [centered]
  rw [List.map_map, List.map_map]
  exact List.map_congr_left fun row _ => zipWith_sub_neg row (colMeans ex)

lemma matVec_centered_neg (ex : Example4) (v : List ℚ) :
    matVecQ (centered (negEx ex)) (v.map Neg.neg) = matVecQ (centered ex) v := by
  rw [centered_negEx, matVecQ_neg_matrix, matVecQ_neg_vector, map_neg_map_neg]

lemma width_negEx (ex : Example4) : (negEx ex).headI.headI.length = ex.headI.headI.length := by
  cases ex with
  | nil => simp [negEx]
  | cons ch chs =>
    cases ch with
    | nil => simp [negEx]
    | cons row rows => simp [negEx]

lemma eigenCamEx_neg (ex : Example4) (v : List ℚ) :
    eigenCamExFromAxis (negEx ex) (v.map Neg.neg) = eigenCamExFromAxis ex v := by
  simp only [eigenCamExFromAxis]
  rw [matVec_centered_neg, width_negEx]

lemma eigenCam_neg_all (x : Tensor4) (vs : List (List ℚ)) :
    eigenCamFromAxis (negT x) (vs.map (List.map Neg.neg)) = eigenCamFromAxis x vs := by
  rw [eigenCamFromAxis, eigenCamFromAxis, negT, List.zipWith_map]
  have h : (fun (ex : Example4) (v : List ℚ) => eigenCamExFromAxis (negEx ex) (v.map Neg.neg))
      = eigenCamExFromAxis := by
    funext ex v
    exact eigenCamEx_neg ex v
  rw [h]

lemma centered_X2 : centered [[[0, 2]]] = [[-1], [1]] := by
  simp [centered, reshapedFmap, flatChannels, colMeans, List.range_succ, List.headI]
  norm_num

lemma centered_NX2 : centered [[[0, -2]]] = [[1], [-1]] := by
  simp [centered, reshapedFmap, flatChannels, colMeans, List.range_succ, List.headI]
  norm_num

lemma isPrincipalAxis_single_col (a b : ℚ) : IsPrincipalAxis [[a], [b]] [1] := by
  constructor
  · simp [dotQ]
  · intro u hlen hu
    have hlen1 : u.length = 1 := by simpa using hlen
    obtain ⟨t, rfl⟩ := List.length_eq_one.mp hlen1
    have ht : t * t = 1 := by simpa [dotQ] using hu
    have h2 : dotQ (matVecQ [[a], [b]] [t]) (matVecQ [[a], [b]] [t])
        = (a * a + b * b) * (t * t) := by
      simp [matVecQ, dotQ]
      ring
    have h3 : dotQ (matVecQ [[a], [b]] [1]) (matVecQ [[a], [b]] [1]) = a * a + b * b := by
      simp [matVecQ, dotQ]
    rw [h2, h3, ht, mul_one]

lemma toByte_510_div : toByte (255 * ((1 : ℚ) - -1) / (1 - -1 + eps)) = 254 := by
  have harg : (255 * ((1 : ℚ) - -1) / (1 - -1 + eps)) = 510 / (2 + 1 / 10 ^ 12) := by
    norm_num [eps]
  rw [toByte, harg]
  have hf : ⌊(510 / (2 + 1 / 10 ^ 12) : ℚ)⌋ = 254 := by
    rw [Int.floor_eq_iff]
    constructor
    · rw [le_div_iff₀ (by norm_num)]
      norm_num
    · rw [div_lt_iff₀ (by norm_num)]
      norm_num
  rw [hf]
  rfl

lemma toByte_flat_zero : toByte (255 * ((-1 : ℚ) - -1) / (1 - -1 + eps)) = 0 := by
  have harg : (255 * ((-1 : ℚ) - -1) / (1 - -1 + eps)) = 0 := by
    norm_num
  rw [harg, toByte_zero]

/-- C2 counterexample: for the 1x1x1x2 tensor X = (0, 2) and its negation,
the axis (1) is a valid principal axis (first right-singular vector) of both
centered matrices, yet EigenCAM computed with that axis for both inputs gives
(0, 254) for X and (254, 0) for -X: the min-max normalization does not absorb
a common sign choice, so the maps are not identical for every valid SVD
output. -/
theorem eigenCam_sign_counterexample :
    IsPrincipalAxis (centered [[[0, 2]]]) [1] ∧
    IsPrincipalAxis (centered [[[0, -2]]]) [1] ∧
    eigenCamFromAxis [[[[0, 2]]]] [[1]] ≠ eigenCamFromAxis [[[[0, -2]]]] [[1]] := by
  refine ⟨?_, ?_, ?_⟩
  · rw [centered_X2]
    exact isPrincipalAxis_single_col (-1) 1
  · rw [centered_NX2]
    exact isPrincipalAxis_single_col 1 (-1)
  · have hsal1 : matVecQ (centered [[[0, 2]]]) [1] = [-1, 1] := by
      rw [centered_X2]
      simp [matVecQ, dotQ]
    have hsal2 : matVecQ (centered [[[0, -2]]]) [1] = [1, -1] := by
      rw [centered_NX2]
      simp [matVecQ, dotQ]
    have hmin1 : minQ [(-1 : ℚ), 1] = -1 := by norm_num [minQ, min_def]
    have hmax1 : maxQ [(-1 : ℚ), 1] = 1 := by norm_num [maxQ, max_def]
    have hmin2 : minQ [(1 : ℚ), -1] = -1 := by norm_num [minQ, min_def]
    have hmax2 : maxQ [(1 : ℚ), -1] = 1 := by norm_num [maxQ, max_def]
    have hw1 : ([[[0, 2]]] : Example4).headI.headI.length = 2 := by simp [List.headI]
    have hw2 : ([[[0, -2]]] : Example4).headI.headI.length = 2 := by simp [List.headI]
    have e1 : eigenCamFromAxis [[[[0, 2]]]] [[1]] = [[[0, 254]]] := by
      have hz : eigenCamFromAxis [[[[0, 2]]]] [[1]] = [eigenCamExFromAxis [[[0, 2]]] [1]] := rfl
      rw [hz]
      simp only [eigenCamExFromAxis]
      rw [hsal1, hmin1, hmax1, hw1]
      simp only [List.map_cons, List.map_nil]
      rw [toByte_flat_zero, toByte_510_div]
      simp [chunksW]
    have e2 : eigenCamFromAxis [[[[0, -2]]]] [[1]] = [[[254, 0]]] := by
      have hz : eigenCamFromAxis [[[[0, -2]]]] [[1]] = [eigenCamExFromAxis [[[0, -2]]] [1]] := rfl
      rw [hz]
      simp only [eigenCamExFromAxis]
      rw [hsal2, hmin2, hmax2, hw2]
      simp only [List.map_cons, List.map_nil]
      rw [toByte_flat_zero, toByte_510_div]
      simp [chunksW]
    intro hcontra
    rw [e1, e2] at hcontra
    exact absurd hcontra (by decide)

/-- C2 amended: EigenCAM on X and on its channel-wise negation -X produce
identical byte maps when the principal axis used for -X is the negation of
the axis used for X; negating the axis is always a valid choice, since the
negated axis is a principal axis of the negated centered matrix (which is
exactly the centered matrix of -X).  With a common (non-negated) axis the two
maps need not coincide. -/
theorem eigenCam_negation_amended :
    (∀ (x : Tensor4) (vs : List (List ℚ)),
        eigenCamFromAxis (negT x) (vs.map (List.map Neg.neg)) = eigenCamFromAxis x vs) ∧
    (∀ ex : Example4, centered (negEx ex) = (centered ex).map (List.map Neg.neg)) ∧
    (∀ (m : List (List ℚ)) (v : List ℚ), IsPrincipalAxis m v →
        IsPrincipalAxis (m.map (List.map Neg.neg)) (v.map Neg.neg)) :=
  ⟨eigenCam_neg_all, centered_negEx, isPrincipalAxis_neg⟩

/-- Witness for C2 amended: at X = (0, 2) with axis (1), the negated input
with negated axis reproduces the same map, and the negated axis is a
principal axis of the negated centered matrix. -/
theorem eigenCam_negation_amended_witness :
    eigenCamFromAxis (negT [[[[0, 2]]]]) [[-1]] = eigenCamFromAxis [[[[0, 2]]]] [[1]] ∧
    IsPrincipalAxis ((centered [[[0, 2]]]).map (List.map Neg.neg)) [-1] := by
  constructor
  · have h := (eigenCam_negation_amended).1 [[[[0, 2]]]] [[1]]
    simpa using h
  · have h2 := (eigenCam_negation_amended).2.2 (centered [[[0, 2]]]) [1]
      (by rw [centered_X2]; exact isPrincipalAxis_single_col (-1) 1)
    simpa using h2

end AuxHooks
